import Mathlib

/-!
# The L-system rewriting engine of `l_system.go`

A shallow embedding of the Go package `l_system` and the properties of its
rewriting step.

Modelling conventions.

* A Go `byte` is a `Fin 256`.
* A `[]byte` that is only read for its content (the current state, the argument
  of `Reset` and of `NewLSystem`) is a `List Byte`; a nil slice and an empty one
  have the same content and are both `[]`.
* A `[]byte` whose nil-ness is tested by the code (a production, the
  `replacement` argument of `SetProduction`) is an `Option (List Byte)`, `none`
  being the nil slice.
* `productions [][]byte` is a list of productions; indexing it out of range is a
  Go run-time panic, modelled by the result `none`.
* `uint64` values are natural numbers and every `uint64` operation is reduced
  modulo `2 ^ 64`.
* The Go `error` returned by `Iterate` is an `Option Error`, `none` being `nil`.
* Methods with a pointer receiver return the updated engine.
* In `Iterate` allocation never fails: `make` and `append` always return, and a
  list may be longer than any slice. The length of a Go slice is an `int`, hence
  below `2 ^ 64`; a statement about a state the program holds may assume that
  much of its length. `IterateAlloc` is the same code with the run-time panic of
  `make([]byte, 0, newSize)` on a capacity the runtime cannot allocate; the
  statements that a call succeeds are made of it.
* Sharing of arrays between slices is invisible in a list of bytes; the section
  on slices as references gives the functions that take or return a slice over
  an explicit memory of arrays, and `valueOf` relates the two levels.
-/

set_option maxRecDepth 100000

namespace l_system

/-- A Go `byte`. -/
abbrev Byte := Fin 256

/-- The number of values of a `uint64`. -/
def uint64Size : Nat := 2 ^ 64

/-- The default limit on the size of the produced string: 100 MB. -/
def DefaultSizeLimit : Nat := 1024 * 1024 * 100

/-- The errors of the package; `SizeLimitExceededError` is returned by `Iterate`
when the produced string would grow past `SizeLimit`. -/
inductive Error where
  | SizeLimitExceededError
  deriving DecidableEq, Repr

/-- Holds the production rules of the L-system as well as its current state. -/
structure LSystem where
  /-- Each production, indexed by the byte it matches; `none` is a nil slice. -/
  productions : List (Option (List Byte))
  /-- The current string of the L-system. -/
  currentState : List Byte
  /-- The limit on the number of bytes that can be produced (a `uint64`). -/
  SizeLimit : Nat
  deriving DecidableEq, Repr

/-- Go's builtin `copy(dst, src)`: overwrites the first `min (len dst) (len src)`
elements of `dst` with those of `src`. -/
def copy (dst src : List Byte) : List Byte :=
  src.take dst.length ++ dst.drop src.length

/-- Returns a new slice holding a copy of `b`. -/
def copyBytes (b : List Byte) : List Byte :=
  let toReturn : List Byte := List.replicate b.length 0
  copy toReturn b

/-- Sets the production rule for the given byte, overwriting any previously-set
production for the byte. A nil `replacement` removes the production; an empty
one makes the production remove the matched symbol. The result is `none` when
the assignment `m.productions[matches] = ...` indexes out of range. -/
def SetProduction (m : LSystem) (matches_ : Byte) (replacement : Option (List Byte)) :
    Option LSystem :=
  match replacement with
  | none =>
    if matches_.val < m.productions.length then
      some { m with productions := m.productions.set matches_.val none }
    else none
  | some r =>
    if matches_.val < m.productions.length then
      some { m with productions := m.productions.set matches_.val (some (copyBytes r)) }
    else none

/-- Resets the current state to the given bytes, without clearing the production
rules or changing the size limit. -/
def Reset (m : LSystem) (initialValue : List Byte) : LSystem :=
  { m with currentState := copyBytes initialValue }

/-- The loop of `getNextSize`: `toReturn` is the `uint64` accumulator; `none` is
the panic of `m.productions[c]` out of range. -/
def getNextSizeLoop (productions : List (Option (List Byte))) :
    List Byte → Nat → Option Nat
  | [], toReturn => some toReturn
  | c :: rest, toReturn =>
    match productions[c.val]? with
    | none => none
    | some none => getNextSizeLoop productions rest ((toReturn + 1) % uint64Size)
    | some (some p) =>
      getNextSizeLoop productions rest ((toReturn + p.length % uint64Size) % uint64Size)

/-- Returns the size of the resulting string, after applying a single iteration
of productions. -/
def getNextSize (m : LSystem) : Option Nat :=
  getNextSizeLoop m.productions m.currentState 0

/-- The loop of `Iterate`: appends to `newState` the symbol itself (nil
production) or its production; `none` is the panic of `m.productions[c]` out of
range. -/
def iterateLoop (productions : List (Option (List Byte))) :
    List Byte → List Byte → Option (List Byte)
  | [], newState => some newState
  | c :: rest, newState =>
    match productions[c.val]? with
    | none => none
    | some none => iterateLoop productions rest (newState ++ [c])
    | some (some p) => iterateLoop productions rest (newState ++ p)

/-- Applies the production rules exactly once. The result is `none` on a
run-time panic, otherwise the returned error (`none` for `nil`) and the engine
after the call. Here `make([]byte, 0, newSize)` returns for every `newSize`;
`IterateAlloc` has its panic. -/
def Iterate (m : LSystem) : Option (Option Error × LSystem) :=
  match getNextSize m with
  | none => none
  | some newSize =>
    if newSize > m.SizeLimit then
      some (some Error.SizeLimitExceededError, m)
    else
      match iterateLoop m.productions m.currentState [] with
      | none => none
      | some newState => some (none, { m with currentState := newState })

/-- The largest `int` of a 64-bit platform, the bound of every slice length and
capacity. -/
def maxInt : Nat := 2 ^ 63 - 1

/-- Applies the production rules exactly once, with the run-time panic of
`make([]byte, 0, newSize)`: the call panics when `newSize` is above `maxAlloc`,
the largest capacity the Go runtime allocates for a byte slice. `maxAlloc` is a
constant of the runtime and of the platform, not of this package, and is at most
`maxInt`. Once `make` has returned with the capacity `newSize`, the appends that
fill it allocate nothing. -/
def IterateAlloc (maxAlloc : Nat) (m : LSystem) : Option (Option Error × LSystem) :=
  match getNextSize m with
  | none => none
  | some newSize =>
    if newSize > m.SizeLimit then
      some (some Error.SizeLimitExceededError, m)
    else if newSize > maxAlloc then
      none
    else
      match iterateLoop m.productions m.currentState [] with
      | none => none
      | some newState => some (none, { m with currentState := newState })

/-- Returns the current string generated by the L-system. -/
def GetValue (m : LSystem) : List Byte :=
  m.currentState

/-- Creates a new L-system instance, with no production rules, and the state set
to the given initial value. -/
def NewLSystem (initialValue : List Byte) : LSystem :=
  { productions := List.replicate 256 none
    currentState := copyBytes initialValue
    SizeLimit := DefaultSizeLimit }

/-! ## The rewriting step as the specification words it -/

/-- The rule of symbol `c` in a production table: `none` when `c` is unset (its
entry is nil), `some r` when `c` has the replacement `r`. -/
def ruleOf (productions : List (Option (List Byte))) (c : Byte) : Option (List Byte) :=
  (productions[c.val]?).join

/-- What one occurrence of `c` becomes: `[c]` when `c` is unset, its replacement
otherwise. -/
def expand (productions : List (Option (List Byte))) (c : Byte) : List Byte :=
  match ruleOf productions c with
  | none => [c]
  | some r => r

/-- The left-to-right concatenation of the expansions of the symbols of `s`. -/
def rewrite (productions : List (Option (List Byte))) (s : List Byte) : List Byte :=
  (s.map (expand productions)).flatten

/-- What one occurrence of `c` adds to the next length: 1 when `c` is unset, the
length of its replacement otherwise. -/
def weight (productions : List (Option (List Byte))) (c : Byte) : Nat :=
  match ruleOf productions c with
  | none => 1
  | some r => r.length

/-- The exact (unbounded) next-state length: the sum of the weights of the
symbols of `s`. -/
def exactNextSize (productions : List (Option (List Byte))) (s : List Byte) : Nat :=
  (s.map (weight productions)).sum

/-- Every symbol of `s` indexes the table in range. -/
def InRange (productions : List (Option (List Byte))) (s : List Byte) : Prop :=
  ∀ c ∈ s, c.val < productions.length

/-- The table has one entry for each of the 256 bytes, as `NewLSystem` makes it. -/
def FullTable (m : LSystem) : Prop :=
  m.productions.length = 256

instance (m : LSystem) : Decidable (FullTable m) := by
  unfold FullTable; infer_instance

/-- What a caller observes of a call of `Iterate`: whether it panicked, the
error it returned and the value `GetValue` then returns. -/
def outcome (r : Option (Option Error × LSystem)) : Option (Option Error × List Byte) :=
  r.map (fun x => (x.1, GetValue x.2))

/-- Runs `Iterate` and keeps the engine when the call returned `nil`. -/
def iterateOk (m : LSystem) : Option LSystem :=
  match Iterate m with
  | some (none, m') => some m'
  | _ => none

/-- Runs `Iterate` `n` times, each call having to return `nil`. -/
def iterateTimes : Nat → LSystem → Option LSystem
  | 0, m => some m
  | n + 1, m => (iterateOk m).bind (iterateTimes n)

/-- Runs `IterateAlloc` and keeps the engine when the call returned `nil`. -/
def iterateOkAlloc (maxAlloc : Nat) (m : LSystem) : Option LSystem :=
  match IterateAlloc maxAlloc m with
  | some (none, m') => some m'
  | _ => none

/-- Runs `IterateAlloc` `n` times, each call having to return `nil`. -/
def iterateTimesAlloc (maxAlloc : Nat) : Nat → LSystem → Option LSystem
  | 0, m => some m
  | n + 1, m => (iterateOkAlloc maxAlloc m).bind (iterateTimesAlloc maxAlloc n)

/-- The engine `m` whose current state has had every occurrence of `s` removed. -/
def withoutSymbol (m : LSystem) (s : Byte) : LSystem :=
  { m with currentState := m.currentState.filter (fun c => decide (c ≠ s)) }

/-! ## The engines of the tests -/

/-- The byte of the character A. -/
def symA : Byte := 65

/-- The byte of the character B. -/
def symB : Byte := 66

/-- The byte of the character C. -/
def symC : Byte := 67

/-- The byte of the character D. -/
def symD : Byte := 68

/-- The engine of `TestLSystem`: state AC, rules A to AA and C to BC. -/
def engineAC : Option LSystem :=
  (SetProduction (NewLSystem [symA, symC]) symA (some [symA, symA])).bind
    (fun m => SetProduction m symC (some [symB, symC]))

/-- The engine of `TestFromReadme` before its last rule: state AB, rules A to AA
and B to BCD. -/
def engineABNoC : Option LSystem :=
  (SetProduction (NewLSystem [symA, symB]) symA (some [symA, symA])).bind
    (fun m => SetProduction m symB (some [symB, symC, symD]))

/-- The engine of `TestFromReadme`: state AB, rules A to AA, B to BCD and C to
the empty string. -/
def engineAB : Option LSystem :=
  engineABNoC.bind (fun m => SetProduction m symC (some []))

/-- The second part of `TestLSystem`: the engine `m` reset to AAAAAAC, with A
deleted and C unset. -/
def resetAAAAAAC (m : LSystem) : Option LSystem :=
  (SetProduction (Reset m [symA, symA, symA, symA, symA, symA, symC]) symA (some [])).bind
    (fun m1 => SetProduction m1 symC none)

/-- An engine with state AC and the single rule A to AA, with the size limit
`limit`. -/
def engineLimit (limit : Nat) : LSystem :=
  { productions := (List.replicate 256 none).set symA.val (some [symA, symA])
    currentState := [symA, symC]
    SizeLimit := limit }

/-- The engine `NewLSystem` and `SetProduction` build from a state of `n` symbols
A and the rule A to `k` symbols A, with the size limit `limit`. -/
def repeatEngine (n k limit : Nat) : LSystem :=
  { productions := (List.replicate 256 none).set symA.val (some (List.replicate k symA))
    currentState := List.replicate n symA
    SizeLimit := limit }

/-- A state of `2 ^ 32` symbols A with the rule A to `2 ^ 32` symbols A, with the
size limit left at its default: the exact next length is `2 ^ 64`. -/
def overflowEngine : LSystem :=
  repeatEngine (2 ^ 32) (2 ^ 32) DefaultSizeLimit

/-- The engine `m` with the current state `s`. -/
def withState (m : LSystem) (s : List Byte) : LSystem :=
  { m with currentState := s }

/-- The engine of the third part of `TestLSystem`: state A, the single rule A to
AA, and `SizeLimit` assigned the value `limit`. -/
def doublingEngine (limit : Nat) : Option LSystem :=
  (SetProduction (NewLSystem [symA]) symA (some [symA, symA])).map
    (fun m => { m with SizeLimit := limit })

/-- A state of `2 ^ 32` symbols A with the rule A to `2 ^ 31` symbols A, and
`SizeLimit` assigned the largest `uint64`: the exact next length is `2 ^ 63`. -/
def allocEngine : LSystem :=
  repeatEngine (2 ^ 32) (2 ^ 31) (2 ^ 64 - 1)

/-- The state AB with the single rule B to BB, under the size limit 1. -/
def engineFailAB : LSystem :=
  { productions := (List.replicate 256 none).set symB.val (some [symB, symB])
    currentState := [symA, symB]
    SizeLimit := 1 }

/-! ## Sequences of calls -/

/-- One thing a client does with an engine: a call of `SetProduction`, of `Reset`
or of `Iterate`, or an assignment to the field `SizeLimit`. -/
inductive Call where
  | SetProduction (matches_ : Byte) (replacement : Option (List Byte))
  | Reset (initialValue : List Byte)
  | Iterate
  | SetSizeLimit (limit : Nat)
  deriving DecidableEq, Repr

/-- The engine after one call, `none` when the call panics. The error `Iterate`
returns is dropped: the engine after the call is kept either way. The value
assigned to `SizeLimit` is a `uint64`. -/
def runCall (m : LSystem) : Call → Option LSystem
  | .SetProduction s r => SetProduction m s r
  | .Reset v => some (Reset m v)
  | .Iterate => (Iterate m).map Prod.snd
  | .SetSizeLimit limit => some { m with SizeLimit := limit % uint64Size }

/-- The engine after a sequence of calls, `none` when one of them panics. -/
def runCalls : List Call → LSystem → Option LSystem
  | [], m => some m
  | c :: rest, m => (runCall m c).bind (runCalls rest)

/-- The call is a call of `Iterate` or of `Reset`. -/
def isIterateOrReset : Call → Bool
  | .Reset _ => true
  | .Iterate => true
  | _ => false

/-! ## Slices as references

The definitions above give a slice by its content. To tell a copy from a shared
array, the functions that take or return a slice are given a second time over a
memory of arrays, a slice being the address of its array. -/

/-- The memory of byte arrays: the array at address `a` is the entry `a`. -/
abbrev Heap := List (List Byte)

/-- A `[]byte` as a reference: `none` is the nil slice, `some a` the slice over the
array at address `a`. -/
abbrev SliceRef := Option Nat

/-- The content of a slice in a memory. -/
def contents (h : Heap) (b : SliceRef) : List Byte :=
  match b with
  | none => []
  | some a => h.getD a []

/-- Go's `make([]byte, n)`: a new zeroed array, at the first free address. -/
def makeBytes (h : Heap) (n : Nat) : Heap × Nat :=
  (h ++ [List.replicate n 0], h.length)

/-- Returns a new slice holding a copy of `b`, over a memory. -/
def copyBytesRef (h : Heap) (b : SliceRef) : Heap × Nat :=
  let made := makeBytes h (contents h b).length
  let toReturn := made.2
  (made.1.set toReturn (copy (made.1.getD toReturn []) (contents made.1 b)), toReturn)

/-- The assignment `v[i] = x` a caller makes through a slice over the array at
address `v`. -/
def storeByte (h : Heap) (v i : Nat) (x : Byte) : Heap :=
  h.set v ((h.getD v []).set i x)

/-- The engine with its slices as references. -/
structure LSystemRef where
  /-- Each production, a nil slice or the address of its array. -/
  productions : List SliceRef
  /-- The slice of the current string. -/
  currentState : SliceRef
  /-- The limit on the number of bytes that can be produced. -/
  SizeLimit : Nat
  deriving DecidableEq, Repr

/-- `SetProduction` over a memory: a nil `replacement` is stored as nil, any
other is stored as the slice `copyBytes` returns. -/
def SetProductionRef (h : Heap) (m : LSystemRef) (matches_ : Byte) (replacement : SliceRef) :
    Option (Heap × LSystemRef) :=
  match replacement with
  | none =>
    if matches_.val < m.productions.length then
      some (h, { m with productions := m.productions.set matches_.val none })
    else none
  | some a =>
    if matches_.val < m.productions.length then
      let copied := copyBytesRef h (some a)
      some (copied.1,
        { m with productions := m.productions.set matches_.val (some copied.2) })
    else none

/-- `Reset` over a memory: the current state becomes the slice `copyBytes`
returns. -/
def ResetRef (h : Heap) (m : LSystemRef) (initialValue : SliceRef) : Heap × LSystemRef :=
  let copied := copyBytesRef h initialValue
  (copied.1, { m with currentState := some copied.2 })

/-- `GetValue` over a memory: returns the slice `m.currentState` itself. -/
def GetValueRef (m : LSystemRef) : SliceRef :=
  m.currentState

/-- `NewLSystem` over a memory. -/
def NewLSystemRef (h : Heap) (initialValue : SliceRef) : Heap × LSystemRef :=
  let copied := copyBytesRef h initialValue
  (copied.1,
    { productions := List.replicate 256 none
      currentState := some copied.2
      SizeLimit := DefaultSizeLimit })

/-- The engine of contents that an engine of references stands for in a
memory. -/
def valueOf (h : Heap) (m : LSystemRef) : LSystem :=
  { productions := m.productions.map (fun p => p.map (fun a => h.getD a []))
    currentState := contents h m.currentState
    SizeLimit := m.SizeLimit }

/-- The array at address `a` exists and is none of the arrays of the engine `m`,
which all exist: `a` is an array of the caller. -/
def CallerOwned (h : Heap) (m : LSystemRef) (a : Nat) : Prop :=
  a < h.length ∧
    (∀ b, m.currentState = some b → b < h.length ∧ b ≠ a) ∧
    ∀ p ∈ m.productions, ∀ b, p = some b → b < h.length ∧ b ≠ a

/-- A memory with the one array AC, at address 0. -/
def heapAC : Heap := [[symA, symC]]

/-- A memory with the arrays AC and BC, the engine over it with state AC (the
array 0) and the rule A to AA (the array 2). -/
def heapOwned : Heap := [[symA, symC], [symB, symC], [symA, symA]]

/-- The engine over `heapOwned`: state the array 0, rule A to the array 2. -/
def engineOwned : LSystemRef :=
  { productions := (List.replicate 256 none).set symA.val (some 2)
    currentState := some 0
    SizeLimit := 10 }

/-! ## Lemmas on the two loops -/

theorem copyBytes_eq (b : List Byte) : copyBytes b = b := by
  simp [copyBytes, copy]

theorem expand_length (P : List (Option (List Byte))) (c : Byte) :
    (expand P c).length = weight P c := by
  unfold expand weight
  cases ruleOf P c <;> simp

theorem rewrite_length (P : List (Option (List Byte))) (s : List Byte) :
    (rewrite P s).length = exactNextSize P s := by
  unfold rewrite exactNextSize
  rw [List.length_flatten, List.map_map]
  congr 1
  apply List.map_congr_left
  intro c _
  exact expand_length P c

theorem rewrite_nil (P : List (Option (List Byte))) : rewrite P [] = [] := rfl

theorem rewrite_cons (P : List (Option (List Byte))) (c : Byte) (s : List Byte) :
    rewrite P (c :: s) = expand P c ++ rewrite P s := by
  simp [rewrite]

theorem rewrite_append (P : List (Option (List Byte))) (s t : List Byte) :
    rewrite P (s ++ t) = rewrite P s ++ rewrite P t := by
  simp [rewrite]

theorem exactNextSize_cons (P : List (Option (List Byte))) (c : Byte) (s : List Byte) :
    exactNextSize P (c :: s) = weight P c + exactNextSize P s := by
  simp [exactNextSize]

theorem iterateLoop_eq (P : List (Option (List Byte))) :
    ∀ (s acc : List Byte), InRange P s → iterateLoop P s acc = some (acc ++ rewrite P s)
  | [], acc, _ => by simp [iterateLoop, rewrite_nil]
  | c :: rest, acc, h => by
    have hc : c.val < P.length := h c (List.mem_cons_self _ _)
    have hrest : InRange P rest := fun d hd => h d (List.mem_cons_of_mem _ hd)
    have hget : P[c.val]? = some P[c.val] := List.getElem?_eq_getElem hc
    rw [rewrite_cons]
    unfold iterateLoop
    cases hp : P[c.val] with
    | none =>
      simp only [hget, hp]
      rw [iterateLoop_eq P rest _ hrest]
      simp [expand, ruleOf, hget, hp]
    | some p =>
      simp only [hget, hp]
      rw [iterateLoop_eq P rest _ hrest]
      simp [expand, ruleOf, hget, hp]

theorem iterateLoop_inRange (P : List (Option (List Byte))) :
    ∀ (s acc r : List Byte), iterateLoop P s acc = some r → InRange P s
  | [], _, _, _ => by intro c hc; cases hc
  | c :: rest, acc, r, h => by
    unfold iterateLoop at h
    cases hg : P[c.val]? with
    | none => simp [hg] at h
    | some q =>
      have hc : c.val < P.length := by
        by_contra hlt
        rw [List.getElem?_eq_none (not_lt.mp hlt)] at hg
        cases hg
      cases q with
      | none =>
        simp only [hg] at h
        have := iterateLoop_inRange P rest _ r h
        intro d hd
        rcases List.mem_cons.mp hd with rfl | hd
        · exact hc
        · exact this d hd
      | some p =>
        simp only [hg] at h
        have := iterateLoop_inRange P rest _ r h
        intro d hd
        rcases List.mem_cons.mp hd with rfl | hd
        · exact hc
        · exact this d hd

theorem getNextSizeLoop_eq (P : List (Option (List Byte))) :
    ∀ (s : List Byte) (acc : Nat), InRange P s → acc < uint64Size →
      getNextSizeLoop P s acc = some ((acc + exactNextSize P s) % uint64Size)
  | [], acc, _, hacc => by
    simp [getNextSizeLoop, exactNextSize, Nat.mod_eq_of_lt hacc]
  | c :: rest, acc, h, _ => by
    have hc : c.val < P.length := h c (List.mem_cons_self _ _)
    have hrest : InRange P rest := fun d hd => h d (List.mem_cons_of_mem _ hd)
    have hget : P[c.val]? = some P[c.val] := List.getElem?_eq_getElem hc
    have hpos : 0 < uint64Size := by unfold uint64Size; positivity
    rw [exactNextSize_cons]
    unfold getNextSizeLoop
    cases hp : P[c.val] with
    | none =>
      simp only [hget, hp]
      rw [getNextSizeLoop_eq P rest _ hrest (Nat.mod_lt _ hpos)]
      have hw : weight P c = 1 := by simp [weight, ruleOf, hget, hp]
      rw [hw]
      congr 1
      unfold uint64Size
      omega
    | some p =>
      simp only [hget, hp]
      rw [getNextSizeLoop_eq P rest _ hrest (Nat.mod_lt _ hpos)]
      have hw : weight P c = p.length := by simp [weight, ruleOf, hget, hp]
      rw [hw]
      congr 1
      unfold uint64Size
      omega

theorem getNextSizeLoop_inRange (P : List (Option (List Byte))) :
    ∀ (s : List Byte) (acc n : Nat), getNextSizeLoop P s acc = some n → InRange P s
  | [], _, _, _ => by intro c hc; cases hc
  | c :: rest, acc, n, h => by
    unfold getNextSizeLoop at h
    cases hg : P[c.val]? with
    | none => simp [hg] at h
    | some q =>
      have hc : c.val < P.length := by
        by_contra hlt
        rw [List.getElem?_eq_none (not_lt.mp hlt)] at hg
        cases hg
      cases q with
      | none =>
        simp only [hg] at h
        have := getNextSizeLoop_inRange P rest _ n h
        intro d hd
        rcases List.mem_cons.mp hd with rfl | hd
        · exact hc
        · exact this d hd
      | some p =>
        simp only [hg] at h
        have := getNextSizeLoop_inRange P rest _ n h
        intro d hd
        rcases List.mem_cons.mp hd with rfl | hd
        · exact hc
        · exact this d hd

theorem inRange_of_fullTable (m : LSystem) (h : FullTable m) (s : List Byte) :
    InRange m.productions s := by
  intro c _
  rw [h]
  exact c.isLt

theorem getNextSize_eq (m : LSystem) (h : InRange m.productions m.currentState) :
    getNextSize m = some (exactNextSize m.productions m.currentState % uint64Size) := by
  unfold getNextSize
  rw [getNextSizeLoop_eq _ _ _ h (by unfold uint64Size; positivity), Nat.zero_add]

theorem getNextSize_inRange (m : LSystem) (n : Nat) (h : getNextSize m = some n) :
    InRange m.productions m.currentState :=
  getNextSizeLoop_inRange _ _ _ _ h

/-- The whole of `Iterate` on an engine whose symbols index the table in range. -/
theorem Iterate_eq (m : LSystem) (h : InRange m.productions m.currentState) :
    Iterate m =
      if exactNextSize m.productions m.currentState % uint64Size > m.SizeLimit then
        some (some Error.SizeLimitExceededError, m)
      else
        some (none, { m with currentState := rewrite m.productions m.currentState }) := by
  unfold Iterate
  rw [getNextSize_eq m h, iterateLoop_eq _ _ _ h]
  simp

/-- A call of `Iterate` that returns (does not panic) had its symbols in range. -/
theorem Iterate_inRange (m : LSystem) (r : Option Error × LSystem)
    (h : Iterate m = some r) : InRange m.productions m.currentState := by
  unfold Iterate at h
  cases hg : getNextSize m with
  | none => simp [hg] at h
  | some n => exact getNextSize_inRange m n hg

/-- A call of `Iterate` that returns `nil` replaced the state by its rewriting and
nothing else. -/
theorem Iterate_nil (m m1 : LSystem) (h : Iterate m = some (none, m1)) :
    m1 = { m with currentState := rewrite m.productions m.currentState } := by
  have hr := Iterate_inRange m _ h
  rw [Iterate_eq m hr] at h
  split at h
  · simp at h
  · simp only [Option.some.injEq, Prod.mk.injEq, true_and] at h
    exact h.symm

/-- Without range, `Iterate` panics. -/
theorem Iterate_eq_none (m : LSystem) (h : ¬ InRange m.productions m.currentState) :
    Iterate m = none := by
  cases hI : Iterate m with
  | none => rfl
  | some r => exact absurd (Iterate_inRange m r hI) h

/-! ## The rewriting step -/

/-- C1: whenever `Iterate` returns `nil`, the value `GetValue` then returns is the
left-to-right concatenation, over the symbols `c` of the old state, of `[c]` when
`c` is unset and of the replacement of `c` otherwise. The two test scenarios:
AC with A to AA and C to BC gives AAAAAAAABBBC after 3 iterations, and AB with
A to AA, B to BCD and C deleted gives AAAABCDD after 2 iterations. -/
theorem Iterate_success_rewrites :
    (∀ m m1 : LSystem, Iterate m = some (none, m1) →
      GetValue m1 = (m.currentState.map (expand m.productions)).flatten) ∧
    (engineAC.bind (iterateTimes 3)).map GetValue =
      some [symA, symA, symA, symA, symA, symA, symA, symA, symB, symB, symB, symC] ∧
    (engineAB.bind (iterateTimes 2)).map GetValue =
      some [symA, symA, symA, symA, symB, symC, symD, symD] := by
  refine ⟨?_, by decide, by decide⟩
  intro m m1 h
  rw [Iterate_nil m m1 h]
  rfl

/-- The engine AC with the rule A to AA steps to AAC. -/
theorem Iterate_success_rewrites_witness :
    Iterate (engineLimit 10) =
        some (none, { engineLimit 10 with currentState := [symA, symA, symC] }) ∧
      GetValue { engineLimit 10 with currentState := [symA, symA, symC] } =
        ((engineLimit 10).currentState.map (expand (engineLimit 10).productions)).flatten :=
  ⟨by decide, Iterate_success_rewrites.1 _ _ (by decide)⟩

/-- C3: if `Iterate` returns an error, the engine after the call is the engine
before it: the current state (what `GetValue` returns), every entry of the
production table and `SizeLimit` are unchanged. -/
theorem Iterate_error_leaves_engine (m m1 : LSystem) (e : Error)
    (h : Iterate m = some (some e, m1)) :
    m1 = m ∧ GetValue m1 = GetValue m ∧ m1.productions = m.productions ∧
      m1.SizeLimit = m.SizeLimit := by
  have hr := Iterate_inRange m _ h
  rw [Iterate_eq m hr] at h
  split at h
  · simp only [Option.some.injEq, Prod.mk.injEq] at h
    obtain ⟨-, rfl⟩ := h
    exact ⟨rfl, rfl, rfl, rfl⟩
  · simp at h

/-- The engine AC with A to AA has next length 3: under the limit 2 the call
fails and the engine is unchanged. -/
theorem Iterate_error_leaves_engine_witness :
    Iterate (engineLimit 2) = some (some Error.SizeLimitExceededError, engineLimit 2) ∧
      GetValue (engineLimit 2) = [symA, symC] :=
  ⟨by decide,
    (Iterate_error_leaves_engine (engineLimit 2) (engineLimit 2)
      Error.SizeLimitExceededError (by decide)).2.1⟩

/-- C4: when `Iterate` returns `nil`, the length of the new state is the exact sum
over the symbols of the old state of 1 when unset and of the replacement length
otherwise, and it is the value `getNextSize` computed on the old state, that is
the capacity reserved before the rewrite. A state the program holds is a slice,
whose length is an `int` and so below `2 ^ 64`: that is `hlen`. -/
theorem Iterate_length_eq_getNextSize (m m1 : LSystem)
    (h : Iterate m = some (none, m1)) (hlen : (GetValue m1).length < 2 ^ 64) :
    getNextSize m = some (GetValue m1).length ∧
      (GetValue m1).length = exactNextSize m.productions m.currentState := by
  have hr := Iterate_inRange m _ h
  have hI := h
  rw [Iterate_eq m hr] at hI
  split at hI
  · simp at hI
  · simp only [Option.some.injEq, Prod.mk.injEq, true_and] at hI
    have hl : (GetValue m1).length = exactNextSize m.productions m.currentState := by
      rw [← hI]
      exact rewrite_length _ _
    refine ⟨?_, hl⟩
    rw [getNextSize_eq m hr, hl]
    rw [hl] at hlen
    exact congrArg some (Nat.mod_eq_of_lt hlen)

/-- The engine AC with A to AA: the pre-pass returns 3 and the new state AAC has
length 3. -/
theorem Iterate_length_eq_getNextSize_witness :
    getNextSize (engineLimit 10) = some 3 ∧
      (GetValue { engineLimit 10 with currentState := [symA, symA, symC] }).length = 3 :=
  ⟨(Iterate_length_eq_getNextSize (engineLimit 10)
      { engineLimit 10 with currentState := [symA, symA, symC] } (by decide) (by decide)).1,
    rfl⟩

/-! ## Overflow of the length accumulator -/

theorem repeatEngine_fullTable (n k limit : Nat) : FullTable (repeatEngine n k limit) := by
  simp [FullTable, repeatEngine]

theorem repeatEngine_weight (n k limit : Nat) :
    weight (repeatEngine n k limit).productions symA = k := by
  have h : ((List.replicate 256 (none : Option (List Byte))).set symA.val
      (some (List.replicate k symA)))[symA.val]? = some (some (List.replicate k symA)) := by
    rw [List.getElem?_set]
    simp [symA]
  simp only [weight, ruleOf, repeatEngine, h, Option.join, Option.bind, id]
  exact List.length_replicate _ _

theorem repeatEngine_exactNextSize (n k limit : Nat) :
    exactNextSize (repeatEngine n k limit).productions (repeatEngine n k limit).currentState =
      n * k := by
  have hw := repeatEngine_weight n k limit
  unfold exactNextSize
  have hs : (repeatEngine n k limit).currentState = List.replicate n symA := rfl
  rw [hs, List.map_replicate, hw, List.sum_replicate, smul_eq_mul]

theorem repeatEngine_built (n k : Nat) :
    SetProduction (NewLSystem (List.replicate n symA)) symA (some (List.replicate k symA)) =
      some (repeatEngine n k DefaultSizeLimit) := by
  simp [SetProduction, NewLSystem, repeatEngine, copyBytes_eq, symA]

/-- C5, the code at the failing input: the engine built by `NewLSystem` and
`SetProduction` from `2 ^ 32` symbols A and the rule A to `2 ^ 32` symbols A has
the exact next length `2 ^ 64`, yet `getNextSize` returns the wrapped value 0,
which passes the test against `SizeLimit`: `Iterate` does not return
`SizeLimitExceededError`. -/
theorem getNextSize_wraps_at_overflow :
    SetProduction (NewLSystem (List.replicate (2 ^ 32) symA)) symA
        (some (List.replicate (2 ^ 32) symA)) = some overflowEngine ∧
      exactNextSize overflowEngine.productions overflowEngine.currentState = 2 ^ 64 ∧
      getNextSize overflowEngine = some 0 ∧
      ∀ m1, Iterate overflowEngine ≠ some (some Error.SizeLimitExceededError, m1) := by
  have hS : exactNextSize overflowEngine.productions overflowEngine.currentState = 2 ^ 64 := by
    unfold overflowEngine
    rw [repeatEngine_exactNextSize]
    norm_num
  have hr : InRange overflowEngine.productions overflowEngine.currentState :=
    inRange_of_fullTable _ (repeatEngine_fullTable _ _ _) _
  have hg : getNextSize overflowEngine = some 0 := by
    rw [getNextSize_eq _ hr, hS]
    simp [uint64Size]
  refine ⟨repeatEngine_built _ _, hS, hg, ?_⟩
  intro m1 hI
  rw [Iterate_eq _ hr, hS] at hI
  simp [uint64Size] at hI

theorem repeatEngine_expand (n k limit : Nat) :
    expand (repeatEngine n k limit).productions symA = List.replicate k symA := by
  have h : ((List.replicate 256 (none : Option (List Byte))).set symA.val
      (some (List.replicate k symA)))[symA.val]? = some (some (List.replicate k symA)) := by
    rw [List.getElem?_set]
    simp [symA]
  simp only [expand, ruleOf, repeatEngine, h, Option.join, Option.bind, id]

theorem repeatEngine_rewrite (n k limit : Nat) :
    rewrite (repeatEngine n k limit).productions (repeatEngine n k limit).currentState =
      List.replicate (n * k) symA := by
  have hs : (repeatEngine n k limit).currentState = List.replicate n symA := rfl
  unfold rewrite
  rw [hs, List.map_replicate, repeatEngine_expand, List.flatten_replicate_replicate]

/-! ## The capacity limit of `make` -/

/-- The whole of `IterateAlloc` on an engine whose symbols index the table in
range. -/
theorem IterateAlloc_eq (maxAlloc : Nat) (m : LSystem)
    (h : InRange m.productions m.currentState) :
    IterateAlloc maxAlloc m =
      if exactNextSize m.productions m.currentState % uint64Size > m.SizeLimit then
        some (some Error.SizeLimitExceededError, m)
      else if exactNextSize m.productions m.currentState % uint64Size > maxAlloc then
        none
      else
        some (none, { m with currentState := rewrite m.productions m.currentState }) := by
  unfold IterateAlloc
  rw [getNextSize_eq m h, iterateLoop_eq _ _ _ h]
  simp

/-- Where `IterateAlloc` returns, `Iterate` returns the same. -/
theorem IterateAlloc_some (maxAlloc : Nat) (m : LSystem) (r : Option Error × LSystem)
    (h : IterateAlloc maxAlloc m = some r) : Iterate m = some r := by
  have hr : InRange m.productions m.currentState := by
    unfold IterateAlloc at h
    cases hg : getNextSize m with
    | none => simp [hg] at h
    | some n => exact getNextSize_inRange m n hg
  rw [IterateAlloc_eq maxAlloc m hr] at h
  rw [Iterate_eq m hr]
  split at h
  · rename_i hgt
    rw [if_pos hgt]
    exact h
  · rename_i hgt
    rw [if_neg hgt]
    split at h
    · cases h
    · exact h

theorem IterateAlloc_repeatEngine (maxAlloc n k limit : Nat) :
    IterateAlloc maxAlloc (repeatEngine n k limit) =
      if (n * k) % uint64Size > limit then
        some (some Error.SizeLimitExceededError, repeatEngine n k limit)
      else if (n * k) % uint64Size > maxAlloc then none
      else some (none, repeatEngine (n * k) k limit) := by
  rw [IterateAlloc_eq _ _ (inRange_of_fullTable _ (repeatEngine_fullTable n k limit) _),
    repeatEngine_exactNextSize, repeatEngine_rewrite]
  rfl

/-- C2 as stated fails: the engine with a state of `2 ^ 32` symbols A, the rule A
to `2 ^ 31` symbols A and `SizeLimit = 2 ^ 64 - 1` has a full table and the
exact next length `S = 2 ^ 63`, below `2 ^ 64` and within `SizeLimit`, and
`getNextSize` returns `S`; yet the call does not return `nil`: it panics in
`make([]byte, 0, newSize)`, whose capacity `2 ^ 63` is above `maxInt`. -/
theorem IterateAlloc_panics_within_limit :
    FullTable allocEngine ∧
      exactNextSize allocEngine.productions allocEngine.currentState = 2 ^ 63 ∧
      2 ^ 63 < 2 ^ 64 ∧ 2 ^ 63 ≤ allocEngine.SizeLimit ∧
      getNextSize allocEngine = some (2 ^ 63) ∧
      IterateAlloc maxInt allocEngine = none := by
  have hS : exactNextSize allocEngine.productions allocEngine.currentState = 2 ^ 63 := by
    unfold allocEngine
    rw [repeatEngine_exactNextSize]
    norm_num
  have hfull : FullTable allocEngine := repeatEngine_fullTable _ _ _
  have hr := inRange_of_fullTable _ hfull allocEngine.currentState
  have hlim : allocEngine.SizeLimit = 2 ^ 64 - 1 := rfl
  have hmod : (2 : Nat) ^ 63 % uint64Size = 2 ^ 63 := by
    unfold uint64Size
    norm_num
  refine ⟨hfull, hS, by norm_num, ?_, ?_, ?_⟩
  · rw [hlim]
    norm_num
  · rw [getNextSize_eq _ hr, hS, hmod]
  · rw [IterateAlloc_eq _ _ hr, hS, hmod, hlim, if_neg (by norm_num),
      if_pos (by unfold maxInt; norm_num)]

/-- C2, amended: on an engine with a full table whose exact next-state length `S`
is below `2 ^ 64` and at most `maxAlloc`, the largest capacity `make` allocates,
the call returns `nil` if and only if `S ≤ SizeLimit`, otherwise it returns
`SizeLimitExceededError` and leaves the engine as it was; it never panics. -/
theorem IterateAlloc_succeeds_iff_within_limit (maxAlloc : Nat) (m : LSystem)
    (hfull : FullTable m)
    (hS : exactNextSize m.productions m.currentState < 2 ^ 64)
    (halloc : exactNextSize m.productions m.currentState ≤ maxAlloc) :
    ((∃ m1, IterateAlloc maxAlloc m = some (none, m1)) ↔
        exactNextSize m.productions m.currentState ≤ m.SizeLimit) ∧
      (¬ exactNextSize m.productions m.currentState ≤ m.SizeLimit →
        IterateAlloc maxAlloc m = some (some Error.SizeLimitExceededError, m)) ∧
      IterateAlloc maxAlloc m ≠ none := by
  have hr := inRange_of_fullTable m hfull m.currentState
  have hmod : exactNextSize m.productions m.currentState % uint64Size =
      exactNextSize m.productions m.currentState := Nat.mod_eq_of_lt hS
  have hna : ¬ exactNextSize m.productions m.currentState > maxAlloc := not_lt.mpr halloc
  rw [IterateAlloc_eq maxAlloc m hr, hmod]
  by_cases hle : exactNextSize m.productions m.currentState ≤ m.SizeLimit
  · have hng : ¬ exactNextSize m.productions m.currentState > m.SizeLimit := not_lt.mpr hle
    simp [hng, hle, hna]
  · have hg : exactNextSize m.productions m.currentState > m.SizeLimit := not_le.mp hle
    simp [hg, hle]

/-- The engine AC with A to AA has next length 3: it steps under the limit 10,
with room for 3 bytes and more. -/
theorem IterateAlloc_succeeds_iff_within_limit_witness :
    FullTable (engineLimit 10) ∧
      exactNextSize (engineLimit 10).productions (engineLimit 10).currentState < 2 ^ 64 ∧
      exactNextSize (engineLimit 10).productions (engineLimit 10).currentState ≤ 100 ∧
      ((∃ m1, IterateAlloc 100 (engineLimit 10) = some (none, m1)) ↔
        exactNextSize (engineLimit 10).productions (engineLimit 10).currentState ≤
          (engineLimit 10).SizeLimit) :=
  ⟨by decide, by decide, by decide,
    (IterateAlloc_succeeds_iff_within_limit 100 (engineLimit 10)
      (by decide) (by decide) (by decide)).1⟩

/-! ## The doubling scenario -/

theorem doublingEngine_eq (L : Nat) : doublingEngine L = some (repeatEngine 1 2 L) := by
  show (SetProduction (NewLSystem (List.replicate 1 symA)) symA
    (some (List.replicate 2 symA))).map _ = _
  rw [repeatEngine_built]
  rfl

theorem iterateTimesAlloc_repeatEngine (maxAlloc : Nat) :
    ∀ (k n L : Nat), n * 2 ^ k ≤ L → n * 2 ^ k ≤ maxAlloc → n * 2 ^ k < 2 ^ 64 →
      iterateTimesAlloc maxAlloc k (repeatEngine n 2 L) = some (repeatEngine (n * 2 ^ k) 2 L)
  | 0, n, L, _, _, _ => by
    simp [iterateTimesAlloc]
  | k + 1, n, L, hle, hal, hlt => by
    have hpow : n * 2 ^ (k + 1) = n * 2 * 2 ^ k := by ring
    have hstep : n * 2 ≤ n * 2 * 2 ^ k := Nat.le_mul_of_pos_right _ (by positivity)
    rw [hpow] at hle hal hlt
    have hmod : (n * 2) % uint64Size = n * 2 := by
      apply Nat.mod_eq_of_lt
      unfold uint64Size
      omega
    have hI : IterateAlloc maxAlloc (repeatEngine n 2 L) =
        some (none, repeatEngine (n * 2) 2 L) := by
      rw [IterateAlloc_repeatEngine, hmod, if_neg (by omega), if_neg (by omega)]
    unfold iterateTimesAlloc iterateOkAlloc
    rw [hI]
    simp only [Option.some_bind]
    rw [iterateTimesAlloc_repeatEngine maxAlloc k (n * 2) L hle hal hlt, hpow]

/-- A run of doublings whose last size is above `maxAlloc` panics at the call
that would first pass `maxAlloc`. -/
theorem iterateTimesAlloc_panics (maxAlloc : Nat) :
    ∀ (k n L : Nat), maxAlloc < n * 2 ^ (k + 1) → n * 2 ^ (k + 1) ≤ L →
      n * 2 ^ (k + 1) < 2 ^ 64 →
      iterateTimesAlloc maxAlloc (k + 1) (repeatEngine n 2 L) = none
  | k, n, L, hal, hle, hlt => by
    have hpow : n * 2 ^ (k + 1) = n * 2 * 2 ^ k := by ring
    have hstep : n * 2 ≤ n * 2 * 2 ^ k := Nat.le_mul_of_pos_right _ (by positivity)
    rw [hpow] at hal hle hlt
    have hmod : (n * 2) % uint64Size = n * 2 := by
      apply Nat.mod_eq_of_lt
      unfold uint64Size
      omega
    by_cases hbig : n * 2 > maxAlloc
    · have hI : IterateAlloc maxAlloc (repeatEngine n 2 L) = none := by
        rw [IterateAlloc_repeatEngine, hmod, if_neg (by omega), if_pos hbig]
      unfold iterateTimesAlloc iterateOkAlloc
      rw [hI]
      rfl
    · have hI : IterateAlloc maxAlloc (repeatEngine n 2 L) =
          some (none, repeatEngine (n * 2) 2 L) := by
        rw [IterateAlloc_repeatEngine, hmod, if_neg (by omega), if_neg hbig]
      unfold iterateTimesAlloc iterateOkAlloc
      rw [hI]
      simp only [Option.some_bind]
      cases k with
      | zero =>
        exfalso
        simp only [pow_zero, Nat.mul_one] at hal
        exact hbig hal
      | succ j =>
        exact iterateTimesAlloc_panics maxAlloc j (n * 2) L hal hle hlt

theorem doublingEngine_iterateTimesAlloc (maxAlloc L k : Nat) (hk : 2 ^ k ≤ L)
    (hal : 2 ^ k ≤ maxAlloc) (hb : 2 ^ k < 2 ^ 64) :
    (doublingEngine L).bind (iterateTimesAlloc maxAlloc k) =
      some (repeatEngine (2 ^ k) 2 L) := by
  rw [doublingEngine_eq]
  simp only [Option.some_bind]
  have h := iterateTimesAlloc_repeatEngine maxAlloc k 1 L (by omega) (by omega) (by omega)
  rw [Nat.one_mul] at h
  exact h

/-- With `2 ^ (k + 1)` above `maxAlloc`, the first `k + 1` calls on the doubling
engine do not all return `nil`: one of them panics in `make`. -/
theorem doublingEngine_panics (maxAlloc L k : Nat) (hal : maxAlloc < 2 ^ (k + 1))
    (hk : 2 ^ (k + 1) ≤ L) (hb : 2 ^ (k + 1) < 2 ^ 64) :
    (doublingEngine L).bind (iterateTimesAlloc maxAlloc (k + 1)) = none := by
  rw [doublingEngine_eq]
  simp only [Option.some_bind]
  exact iterateTimesAlloc_panics maxAlloc k 1 L (by omega) (by omega) (by omega)

/-- C14 as stated fails at `L = 2 ^ 63` and `k = 63`, which satisfy `2 ^ k ≤ L` and
`2 ^ k < 2 ^ 64`: the first 63 calls do not all return `nil`. The state can at
most double 62 times; the next size `2 ^ 63` is within `SizeLimit`, and
`make([]byte, 0, newSize)` panics on that capacity, above `maxInt` (with a
smaller `maxAlloc` an earlier call panics, `doublingEngine_panics`). -/
theorem doubling_panics_at_63 :
    2 ^ 63 ≤ 2 ^ 63 ∧ 2 ^ 63 < 2 ^ 64 ∧
      (doublingEngine (2 ^ 63)).bind (iterateTimesAlloc maxInt 63) = none :=
  ⟨le_refl _, by norm_num,
    doublingEngine_panics maxInt (2 ^ 63) 62 (by unfold maxInt; norm_num) (le_refl _)
      (by norm_num)⟩

/-- C14, amended (`2 ^ k` at most `maxAlloc`, the largest capacity `make`
allocates, itself at most `maxInt`): the engine built from A with the single
rule A to AA and `SizeLimit = L` returns `nil` on each of its first `k` calls of
`Iterate` and then holds exactly `2 ^ k` symbols A; when twice that length
exceeds `L` the next call returns `SizeLimitExceededError` and leaves the engine
unchanged. With `L = 32` and room for 32 bytes, the calls 1 to 5 return `nil`,
leaving 32 symbols, and call 6 fails, the length staying 32. -/
theorem doubling_within_allocation (maxAlloc L k : Nat) (hmax : maxAlloc ≤ maxInt)
    (hk : 2 ^ k ≤ L) (hal : 2 ^ k ≤ maxAlloc) :
    (doublingEngine L).bind (iterateTimesAlloc maxAlloc k) =
        some (repeatEngine (2 ^ k) 2 L) ∧
      GetValue (repeatEngine (2 ^ k) 2 L) = List.replicate (2 ^ k) symA ∧
      (L < 2 * 2 ^ k →
        IterateAlloc maxAlloc (repeatEngine (2 ^ k) 2 L) =
          some (some Error.SizeLimitExceededError, repeatEngine (2 ^ k) 2 L)) ∧
      (32 ≤ maxAlloc →
        ((doublingEngine 32).bind (iterateTimesAlloc maxAlloc 5)).map GetValue =
            some (List.replicate 32 symA) ∧
          IterateAlloc maxAlloc (repeatEngine 32 2 32) =
            some (some Error.SizeLimitExceededError, repeatEngine 32 2 32)) := by
  have hint : maxInt < 2 ^ 63 := by unfold maxInt; norm_num
  refine ⟨?_, rfl, ?_, ?_⟩
  · exact doublingEngine_iterateTimesAlloc maxAlloc L k hk hal (by omega)
  · intro hL
    have hmod : (2 ^ k * 2) % uint64Size = 2 ^ k * 2 := by
      apply Nat.mod_eq_of_lt
      unfold uint64Size
      omega
    rw [IterateAlloc_repeatEngine, hmod, if_pos (by omega)]
  · intro h32
    constructor
    · rw [doublingEngine_iterateTimesAlloc maxAlloc 32 5 (by norm_num) (by norm_num; exact h32)
        (by norm_num)]
      rfl
    · rw [IterateAlloc_repeatEngine, if_pos (by unfold uint64Size; norm_num)]

/-- With room for 100 bytes, the limit 5 and `k = 2`: two calls succeed and leave
4 symbols A, and the third, which would give 8, fails. -/
theorem doubling_within_allocation_witness :
    100 ≤ maxInt ∧ 2 ^ 2 ≤ 5 ∧ 2 ^ 2 ≤ 100 ∧
      (doublingEngine 5).bind (iterateTimesAlloc 100 2) = some (repeatEngine (2 ^ 2) 2 5) ∧
      IterateAlloc 100 (repeatEngine (2 ^ 2) 2 5) =
        some (some Error.SizeLimitExceededError, repeatEngine (2 ^ 2) 2 5) :=
  ⟨by decide, by decide, by decide,
    (doubling_within_allocation 100 5 2 (by decide) (by decide) (by decide)).1,
    (doubling_within_allocation 100 5 2 (by decide) (by decide) (by decide)).2.2.1
      (by decide)⟩

/-! ## Setting and clearing rules -/

theorem SetProduction_eq (e : LSystem) (s : Byte) (r : Option (List Byte)) :
    SetProduction e s r =
      if s.val < e.productions.length then
        some { e with productions := e.productions.set s.val r }
      else none := by
  cases r <;> simp [SetProduction, copyBytes_eq]

theorem SetProduction_some (e : LSystem) (s : Byte) (r : Option (List Byte)) (e1 : LSystem)
    (h : SetProduction e s r = some e1) :
    s.val < e.productions.length ∧
      e1 = { e with productions := e.productions.set s.val r } := by
  rw [SetProduction_eq] at h
  by_cases hlt : s.val < e.productions.length
  · simp only [hlt, if_true, Option.some.injEq] at h
    exact ⟨hlt, h.symm⟩
  · simp [hlt] at h

theorem ruleOf_set (P : List (Option (List Byte))) (s c : Byte) (r : Option (List Byte))
    (h : s.val < P.length) :
    ruleOf (P.set s.val r) c = if s = c then r else ruleOf P c := by
  unfold ruleOf
  by_cases hsc : s = c
  · subst hsc
    rw [List.getElem?_set_self h]
    simp
  · have hv : s.val ≠ c.val := fun hv => hsc (Fin.ext hv)
    rw [List.getElem?_set_ne hv]
    simp [hsc]

theorem inRange_set (P : List (Option (List Byte))) (i : Nat) (r : Option (List Byte))
    (st : List Byte) : InRange (P.set i r) st ↔ InRange P st := by
  unfold InRange
  rw [List.length_set]

theorem weight_eq_expand_length (P : List (Option (List Byte))) (c : Byte) :
    weight P c = (expand P c).length := (expand_length P c).symm

/-- Two engines with tables of the same length and the same expansions, on the
same state and limit, have the same outcome of `Iterate`. -/
theorem outcome_congr (e e1 : LSystem)
    (hlen : e1.productions.length = e.productions.length)
    (hst : e1.currentState = e.currentState) (hlim : e1.SizeLimit = e.SizeLimit)
    (hexp : ∀ c, expand e1.productions c = expand e.productions c) :
    outcome (Iterate e1) = outcome (Iterate e) := by
  have hrw : rewrite e1.productions e1.currentState = rewrite e.productions e.currentState := by
    unfold rewrite
    rw [hst]
    congr 1
    exact List.map_congr_left (fun c _ => hexp c)
  have hsz : exactNextSize e1.productions e1.currentState =
      exactNextSize e.productions e.currentState := by
    rw [← rewrite_length, ← rewrite_length, hrw]
  have hin : InRange e1.productions e1.currentState ↔ InRange e.productions e.currentState := by
    unfold InRange
    rw [hlen, hst]
  by_cases hr : InRange e.productions e.currentState
  · rw [Iterate_eq e hr, Iterate_eq e1 (hin.mpr hr), hsz, hlim]
    rw [hst] at hrw
    split <;> simp [outcome, GetValue, hrw, hst]
  · rw [Iterate_eq_none e hr, Iterate_eq_none e1 (fun h => hr (hin.mp h))]

/-- C6 (identity default): for a symbol `s` that is unset in `e`,
`SetProduction(s, [s])` succeeds and `Iterate` on the engine it gives has the
same outcome as `Iterate` on `e`: the same error or `nil`, and the same
resulting current state. -/
theorem unset_behaves_as_self_rule (e : LSystem) (s : Byte)
    (hs : e.productions[s.val]? = some none) :
    ∃ e1, SetProduction e s (some [s]) = some e1 ∧
      outcome (Iterate e1) = outcome (Iterate e) := by
  have hlt : s.val < e.productions.length := by
    by_contra hge
    rw [List.getElem?_eq_none (not_lt.mp hge)] at hs
    cases hs
  refine ⟨{ e with productions := e.productions.set s.val (some [s]) }, ?_, ?_⟩
  · rw [SetProduction_eq]
    simp [hlt]
  · apply outcome_congr
    · exact List.length_set _ _ _
    · rfl
    · rfl
    · intro c
      show expand (e.productions.set s.val (some [s])) c = expand e.productions c
      unfold expand
      rw [ruleOf_set _ _ _ _ hlt]
      by_cases hsc : s = c
      · subst hsc
        simp [ruleOf, hs]
      · simp [hsc]

/-- The symbol C is unset in the engine AC with the rule A to AA; giving it the
rule C to C changes nothing of the outcome. -/
theorem unset_behaves_as_self_rule_witness :
    (engineLimit 10).productions[symC.val]? = some none ∧
      ∃ e1, SetProduction (engineLimit 10) symC (some [symC]) = some e1 ∧
        outcome (Iterate e1) = outcome (Iterate (engineLimit 10)) :=
  ⟨by decide, unset_behaves_as_self_rule (engineLimit 10) symC (by decide)⟩

/-! ## Deletion -/

theorem rewrite_filter (P : List (Option (List Byte))) (s : Byte) (hs : expand P s = []) :
    ∀ st : List Byte, rewrite P (st.filter (fun c => decide (c ≠ s))) = rewrite P st
  | [] => rfl
  | c :: rest => by
    by_cases hc : c = s
    · subst hc
      rw [rewrite_cons, hs, List.nil_append, ← rewrite_filter P c hs rest]
      simp [List.filter_cons]
    · rw [rewrite_cons, ← rewrite_filter P s hs rest]
      simp [List.filter_cons, hc, rewrite_cons]

theorem inRange_filter (P : List (Option (List Byte))) (s : Byte) (hs : s.val < P.length)
    (st : List Byte) :
    InRange P (st.filter (fun c => decide (c ≠ s))) ↔ InRange P st := by
  unfold InRange
  constructor
  · intro h c hc
    by_cases hcs : c = s
    · rw [hcs]
      exact hs
    · exact h c (List.mem_filter.mpr ⟨hc, by simpa using hcs⟩)
  · intro h c hc
    exact h c (List.mem_filter.mp hc).1

theorem expand_deleted (e : LSystem) (s : Byte) (e1 : LSystem)
    (h : SetProduction e s (some []) = some e1) :
    e1.productions[s.val]? = some (some []) ∧ ruleOf e1.productions s = some [] ∧
      expand e1.productions s = [] := by
  obtain ⟨hlt, rfl⟩ := SetProduction_some e s _ e1 h
  have hr : ruleOf (e.productions.set s.val (some [])) s = some [] := by
    rw [ruleOf_set _ _ _ _ hlt]
    simp
  refine ⟨List.getElem?_set_self hlt, hr, ?_⟩
  show expand (e.productions.set s.val (some [])) s = []
  unfold expand
  rw [hr]

/-- C7 as stated fails on a call that returns an error: in the engine AB with the
rule B to BB and the limit 1, after `SetProduction(A, empty)` the next size 2 is
over the limit with or without the A; both calls return
`SizeLimitExceededError` and each engine keeps its own state, AB and B. -/
theorem deletion_failed_calls_differ :
    ¬ ∀ (e : LSystem) (s : Byte) (e1 : LSystem), SetProduction e s (some []) = some e1 →
        outcome (Iterate e1) = outcome (Iterate (withoutSymbol e1 s)) := by
  intro hall
  have h := hall engineFailAB symA
    { engineFailAB with productions := engineFailAB.productions.set symA.val (some []) }
    (by decide)
  exact absurd h (by decide)

/-- C7, amended (deletion produces zero output): after `SetProduction(s, empty)`
the entry of `s` is the empty replacement, not nil, an occurrence of `s` expands
to no symbol, and `Iterate` behaves as on the same engine whose current state
has had every occurrence of `s` removed: the same error, `nil` or panic, and
when the calls return `nil` the same next state (a call that returns an error
leaves each engine its own state). The test scenario: AAAAAAC with A deleted and
C unset yields C. -/
theorem SetProduction_empty_deletes (e : LSystem) (s : Byte) (e1 : LSystem)
    (h : SetProduction e s (some []) = some e1) :
    e1.productions[s.val]? = some (some []) ∧
      expand e1.productions s = [] ∧
      (Iterate e1).map Prod.fst = (Iterate (withoutSymbol e1 s)).map Prod.fst ∧
      (∀ m1 m2, Iterate e1 = some (none, m1) →
        Iterate (withoutSymbol e1 s) = some (none, m2) → GetValue m1 = GetValue m2) ∧
      (((engineAC.bind (iterateTimes 3)).bind resetAAAAAAC).bind iterateOk).map GetValue =
        some [symC] := by
  obtain ⟨hget, -, hexp⟩ := expand_deleted e s e1 h
  have hlt : s.val < e1.productions.length := by
    by_contra hge
    rw [List.getElem?_eq_none (not_lt.mp hge)] at hget
    cases hget
  have hrw : rewrite (withoutSymbol e1 s).productions (withoutSymbol e1 s).currentState =
      rewrite e1.productions e1.currentState := rewrite_filter _ s hexp _
  have hsz : exactNextSize (withoutSymbol e1 s).productions (withoutSymbol e1 s).currentState =
      exactNextSize e1.productions e1.currentState := by
    rw [← rewrite_length, ← rewrite_length, hrw]
  have hin : InRange (withoutSymbol e1 s).productions (withoutSymbol e1 s).currentState ↔
      InRange e1.productions e1.currentState := inRange_filter _ s hlt _
  refine ⟨hget, hexp, ?_, ?_, by decide⟩
  · by_cases hr : InRange e1.productions e1.currentState
    · rw [Iterate_eq e1 hr, Iterate_eq _ (hin.mpr hr), hsz]
      have hlim : (withoutSymbol e1 s).SizeLimit = e1.SizeLimit := rfl
      rw [hlim]
      split <;> rfl
    · rw [Iterate_eq_none e1 hr, Iterate_eq_none _ (fun h => hr (hin.mp h))]
  · intro m1 m2 h1 h2
    have hr := Iterate_inRange e1 _ h1
    rw [Iterate_eq e1 hr] at h1
    rw [Iterate_eq _ (hin.mpr hr)] at h2
    split at h1
    · simp at h1
    · split at h2
      · simp at h2
      · simp only [Option.some.injEq, Prod.mk.injEq, true_and] at h1 h2
        rw [← h1, ← h2]
        exact hrw.symm

/-- The engine AC with A to AA: once A is deleted, the state AC steps to C, as
the state C does. -/
theorem SetProduction_empty_deletes_witness :
    SetProduction (engineLimit 10) symA (some []) =
        some { engineLimit 10 with
          productions := (engineLimit 10).productions.set symA.val (some []) } ∧
      expand ((engineLimit 10).productions.set symA.val (some [])) symA = [] :=
  ⟨by decide,
    (SetProduction_empty_deletes (engineLimit 10) symA
      { engineLimit 10 with
        productions := (engineLimit 10).productions.set symA.val (some []) }
      (by decide)).2.1⟩

theorem mem_rewrite (P : List (Option (List Byte))) (st : List Byte) (s : Byte) :
    s ∈ rewrite P st ↔ ∃ c ∈ st, s ∈ expand P c := by
  unfold rewrite
  rw [List.mem_flatten]
  constructor
  · rintro ⟨l, hl, hsl⟩
    obtain ⟨c, hc, rfl⟩ := List.mem_map.mp hl
    exact ⟨c, hc, hsl⟩
  · rintro ⟨c, hc, hsc⟩
    exact ⟨expand P c, List.mem_map.mpr ⟨c, hc, rfl⟩, hsc⟩

/-- C8 as stated fails: in the engine of `TestFromReadme` (state AB, rules A to
AA and B to BCD) the call `SetProduction(C, empty)` is followed by a successful
`Iterate` whose result AABCD contains C, brought in by the replacement of B. -/
theorem deleted_symbol_reappears :
    ¬ ∀ (e : LSystem) (s : Byte) (e1 e2 : LSystem),
        SetProduction e s (some []) = some e1 → Iterate e1 = some (none, e2) →
        s ∉ GetValue e2 := by
  intro hall
  have hC : symC ∉ [symA, symA, symB, symC, symD] :=
    hall
      { productions := ((List.replicate 256 none).set symA.val (some [symA, symA])).set
          symB.val (some [symB, symC, symD])
        currentState := [symA, symB]
        SizeLimit := DefaultSizeLimit }
      symC
      { productions := (((List.replicate 256 none).set symA.val (some [symA, symA])).set
          symB.val (some [symB, symC, symD])).set symC.val (some [])
        currentState := [symA, symB]
        SizeLimit := DefaultSizeLimit }
      { productions := (((List.replicate 256 none).set symA.val (some [symA, symA])).set
          symB.val (some [symB, symC, symD])).set symC.val (some [])
        currentState := [symA, symA, symB, symC, symD]
        SizeLimit := DefaultSizeLimit }
      (by decide) (by decide)
  exact hC (by decide)

/-- C8, amended: after `SetProduction(s, empty)` a successful `Iterate` yields a
next generation in which `s` does not occur, provided no symbol of the current
state has a replacement that contains `s`. -/
theorem deleted_symbol_absent (e : LSystem) (s : Byte) (e1 e2 : LSystem)
    (h1 : SetProduction e s (some []) = some e1) (h2 : Iterate e1 = some (none, e2))
    (hno : ∀ c ∈ e1.currentState, ∀ r, ruleOf e1.productions c = some r → s ∉ r) :
    s ∉ GetValue e2 := by
  obtain ⟨-, hrule, -⟩ := expand_deleted e s e1 h1
  rw [Iterate_nil e1 e2 h2]
  intro hmem
  obtain ⟨c, hc, hsc⟩ := (mem_rewrite e1.productions e1.currentState s).mp hmem
  unfold expand at hsc
  cases hr : ruleOf e1.productions c with
  | none =>
    rw [hr] at hsc
    have hcs : s = c := List.mem_singleton.mp hsc
    rw [← hcs, hrule] at hr
    cases hr
  | some r =>
    rw [hr] at hsc
    exact hno c hc r hr hsc

/-- The engine AC with A to AA: once A is deleted, the next generation C has no
A. -/
theorem deleted_symbol_absent_witness :
    symA ∉ GetValue
      { engineLimit 10 with
        productions := (engineLimit 10).productions.set symA.val (some [])
        currentState := [symC] } :=
  deleted_symbol_absent (engineLimit 10) symA
    { engineLimit 10 with
      productions := (engineLimit 10).productions.set symA.val (some []) }
    { engineLimit 10 with
      productions := (engineLimit 10).productions.set symA.val (some [])
      currentState := [symC] }
    (by decide) (by decide) (by decide)

/-! ## Clearing a rule, resetting the state -/

theorem set_none_of_unset (P : List (Option (List Byte))) (i : Nat)
    (h : P[i]? = some none) : P.set i none = P := by
  apply List.ext_getElem?
  intro n
  rw [List.getElem?_set]
  by_cases hin : i = n
  · subst hin
    have hlt : i < P.length := by
      by_contra hge
      rw [List.getElem?_eq_none (not_lt.mp hge)] at h
      cases h
    simp [hlt, h]
  · simp [hin]

/-- C9 (un-setting restores identity): for every replacement `r`, nil, empty or
not, `SetProduction(s, r)` followed by `SetProduction(s, nil)` leaves `s` unset:
its entry is nil, an occurrence of `s` expands to `s` itself, and a successful
`Iterate` copies every occurrence of `s` through while the other symbols expand
as in the original engine; if `s` was unset beforehand the engine is the
original one. -/
theorem unset_restores_identity (e : LSystem) (s : Byte) (r : Option (List Byte))
    (e2 : LSystem)
    (h : (SetProduction e s r).bind (fun e1 => SetProduction e1 s none) = some e2) :
    e2.productions[s.val]? = some none ∧
      expand e2.productions s = [s] ∧
      (∀ e3, Iterate e2 = some (none, e3) →
        GetValue e3 =
          (e2.currentState.map
            (fun c => if c = s then [s] else expand e.productions c)).flatten) ∧
      (e.productions[s.val]? = some none → e2 = e) := by
  cases h1 : SetProduction e s r with
  | none => simp [h1] at h
  | some e1 =>
    rw [h1] at h
    simp only [Option.some_bind] at h
    obtain ⟨hlt, rfl⟩ := SetProduction_some e s r e1 h1
    obtain ⟨-, rfl⟩ := SetProduction_some _ s none e2 h
    simp only [List.set_set]
    have hrule : ∀ c, ruleOf (e.productions.set s.val none) c =
        if s = c then none else ruleOf e.productions c := fun c => ruleOf_set _ s c none hlt
    have hexp : ∀ c, expand (e.productions.set s.val none) c =
        if c = s then [s] else expand e.productions c := by
      intro c
      unfold expand
      rw [hrule c]
      by_cases hcs : c = s
      · subst hcs
        simp
      · have hsc : ¬ s = c := fun hsc => hcs hsc.symm
        simp [hcs, hsc]
    refine ⟨List.getElem?_set_self hlt, ?_, ?_, ?_⟩
    · rw [hexp s]
      simp
    · intro e3 h3
      rw [Iterate_nil _ e3 h3]
      show rewrite (e.productions.set s.val none) e.currentState = _
      unfold rewrite
      congr 1
      exact List.map_congr_left (fun c _ => hexp c)
    · intro hun
      rw [set_none_of_unset _ _ hun]

/-- The engine AC with A to AA: giving C the rule C to BC and clearing it again
gives back the same engine. -/
theorem unset_restores_identity_witness :
    (SetProduction (engineLimit 10) symC (some [symB, symC])).bind
        (fun e1 => SetProduction e1 symC none) = some (engineLimit 10) ∧
      expand (engineLimit 10).productions symC = [symC] :=
  ⟨by decide,
    (unset_restores_identity (engineLimit 10) symC (some [symB, symC]) (engineLimit 10)
      (by decide)).2.1⟩

/-- C10: after `Reset(v)` the value `GetValue` returns is exactly `v`, and every
entry of the production table and `SizeLimit` are unchanged. `Reset` is a total
function: it has no failing result. -/
theorem Reset_replaces_state_only (m : LSystem) (v : List Byte) :
    GetValue (Reset m v) = v ∧ (Reset m v).productions = m.productions ∧
      (Reset m v).SizeLimit = m.SizeLimit := by
  refine ⟨?_, rfl, rfl⟩
  show copyBytes v = v
  exact copyBytes_eq v

/-! ## The frame of `SetProduction`, construction -/

/-- C11: on an engine with a full table `SetProduction(s, r)` succeeds and changes
only the entry of `s`: the rule of `s` becomes `r` (unset when `r` is nil)
whatever it was, the entry of every other symbol, the current state and
`SizeLimit` are unchanged; and two successive calls on the same symbol are
equivalent to the second alone. -/
theorem SetProduction_changes_one_entry (e : LSystem) (s : Byte) (r : Option (List Byte))
    (hfull : FullTable e) :
    ∃ e1, SetProduction e s r = some e1 ∧
      e1.productions[s.val]? = some r ∧ ruleOf e1.productions s = r ∧
      (∀ t : Byte, t ≠ s → e1.productions[t.val]? = e.productions[t.val]?) ∧
      e1.productions.length = e.productions.length ∧
      e1.currentState = e.currentState ∧ e1.SizeLimit = e.SizeLimit ∧
      ∀ r2, (SetProduction e s r).bind (fun m => SetProduction m s r2) =
        SetProduction e s r2 := by
  have hlt : s.val < e.productions.length := by
    rw [hfull]
    exact s.isLt
  refine ⟨{ e with productions := e.productions.set s.val r }, ?_, ?_, ?_, ?_, ?_, rfl, rfl, ?_⟩
  · rw [SetProduction_eq]
    simp [hlt]
  · exact List.getElem?_set_self hlt
  · show ruleOf (e.productions.set s.val r) s = r
    rw [ruleOf_set _ _ _ _ hlt]
    simp
  · intro t hts
    have hv : s.val ≠ t.val := fun hv => hts (Fin.ext hv).symm
    exact List.getElem?_set_ne hv
  · exact List.length_set _ _ _
  · intro r2
    rw [SetProduction_eq e s r, SetProduction_eq e s r2]
    simp only [hlt, if_true, Option.some_bind]
    rw [SetProduction_eq]
    simp [hlt, List.set_set]

/-- The engine AC with A to AA: giving C the rule C to BC stores that rule and
leaves the state AC. -/
theorem SetProduction_changes_one_entry_witness :
    FullTable (engineLimit 10) ∧
      ∃ e1, SetProduction (engineLimit 10) symC (some [symB, symC]) = some e1 ∧
        e1.productions[symC.val]? = some (some [symB, symC]) ∧
        e1.currentState = [symA, symC] :=
  ⟨by decide,
    (SetProduction_changes_one_entry (engineLimit 10) symC (some [symB, symC])
      (by decide)).imp (fun _ h => ⟨h.1, h.2.1, h.2.2.2.2.2.1⟩)⟩

theorem newLSystem_getElem (v : List Byte) (c : Byte) :
    (NewLSystem v).productions[c.val]? = some none := by
  show (List.replicate 256 (none : Option (List Byte)))[c.val]? = some none
  rw [List.getElem?_replicate, if_pos c.isLt]

theorem newLSystem_expand (v : List Byte) (c : Byte) :
    expand (NewLSystem v).productions c = [c] := by
  simp [expand, ruleOf, newLSystem_getElem]

theorem newLSystem_rewrite (v : List Byte) :
    ∀ s : List Byte, rewrite (NewLSystem v).productions s = s
  | [] => rfl
  | c :: rest => by
    rw [rewrite_cons, newLSystem_expand, newLSystem_rewrite v rest]
    rfl

theorem newLSystem_fullTable (v : List Byte) : FullTable (NewLSystem v) := by
  simp [FullTable, NewLSystem]

/-- C12: `NewLSystem(v)` yields an engine whose table has 256 entries, all unset,
whose `GetValue` is `v` and whose `SizeLimit` is 104,857,600 (1024*1024*100);
when `len(v)` is at most that limit, `Iterate` on it returns `nil` and leaves
the state equal to `v`. -/
theorem NewLSystem_fresh (v : List Byte) :
    (NewLSystem v).productions.length = 256 ∧
      (∀ c : Byte, (NewLSystem v).productions[c.val]? = some none) ∧
      GetValue (NewLSystem v) = v ∧
      (NewLSystem v).SizeLimit = 104857600 ∧
      (NewLSystem v).SizeLimit = 1024 * 1024 * 100 ∧
      (v.length ≤ (NewLSystem v).SizeLimit →
        ∃ m1, Iterate (NewLSystem v) = some (none, m1) ∧ GetValue m1 = v) := by
  refine ⟨newLSystem_fullTable v, newLSystem_getElem v, copyBytes_eq v, rfl, rfl, ?_⟩
  intro hle
  have hst : (NewLSystem v).currentState = v := copyBytes_eq v
  have hr := inRange_of_fullTable _ (newLSystem_fullTable v) (NewLSystem v).currentState
  have hsz : exactNextSize (NewLSystem v).productions (NewLSystem v).currentState = v.length := by
    rw [← rewrite_length, newLSystem_rewrite, hst]
  have hlim : (NewLSystem v).SizeLimit = 104857600 := rfl
  have hmod : v.length % uint64Size = v.length := by
    apply Nat.mod_eq_of_lt
    rw [hlim] at hle
    unfold uint64Size
    omega
  refine ⟨{ NewLSystem v with currentState := v }, ?_, rfl⟩
  rw [Iterate_eq _ hr, hsz, hmod, newLSystem_rewrite, hst]
  simp [not_lt.mpr hle]

/-- The fresh engine on AC steps to AC. -/
theorem NewLSystem_fresh_witness :
    [symA, symC].length ≤ (NewLSystem [symA, symC]).SizeLimit ∧
      ∃ m1, Iterate (NewLSystem [symA, symC]) = some (none, m1) ∧
        GetValue m1 = [symA, symC] :=
  ⟨by decide, (NewLSystem_fresh [symA, symC]).2.2.2.2.2 (by decide)⟩

/-- C18 as stated fails: the limit of a constructed engine is not 100,000,000. -/
theorem NewLSystem_limit_not_decimal :
    (NewLSystem []).SizeLimit ≠ 100000000 ∧
      ¬ ∀ v : List Byte, (NewLSystem v).SizeLimit = 100 * 10 ^ 6 := by
  refine ⟨by decide, ?_⟩
  intro h
  exact absurd (h []) (by decide)

/-- C18, amended: for every initial sequence the constructed engine has
`SizeLimit` equal to `DefaultSizeLimit`, which is 1024 * 1024 * 100 =
104,857,600 (100 MB in binary units). -/
theorem NewLSystem_limit_default (v : List Byte) :
    (NewLSystem v).SizeLimit = DefaultSizeLimit ∧ DefaultSizeLimit = 104857600 ∧
      DefaultSizeLimit = 100 * 2 ^ 20 :=
  ⟨rfl, rfl, by decide⟩

/-! ## The size bound and the frame of `Iterate` -/

/-- A call of `Iterate` that returns leaves the table and the limit as they
were. -/
theorem Iterate_frame (m m1 : LSystem) (err : Option Error)
    (h : Iterate m = some (err, m1)) :
    m1.productions = m.productions ∧ m1.SizeLimit = m.SizeLimit := by
  have hr := Iterate_inRange m _ h
  rw [Iterate_eq m hr] at h
  split at h
  · simp only [Option.some.injEq, Prod.mk.injEq] at h
    obtain ⟨-, rfl⟩ := h
    exact ⟨rfl, rfl⟩
  · simp only [Option.some.injEq, Prod.mk.injEq] at h
    obtain ⟨-, rfl⟩ := h
    exact ⟨rfl, rfl⟩

/-- C13 (size bound): after a call of `Iterate` that returns `nil` the length of
the current state is at most `SizeLimit`; and when the length was at most
`SizeLimit` before a call, it still is after it, whether the call returned `nil`
or an error (`SizeLimit` itself is not changed by the call). The new state is a
slice, whose length is an `int` and so below `2 ^ 64`: that is `hlen`. -/
theorem Iterate_keeps_size_bound (m m1 : LSystem) (err : Option Error)
    (h : Iterate m = some (err, m1)) (hlen : (GetValue m1).length < 2 ^ 64) :
    m1.SizeLimit = m.SizeLimit ∧
      (err = none → (GetValue m1).length ≤ m1.SizeLimit) ∧
      ((GetValue m).length ≤ m.SizeLimit → (GetValue m1).length ≤ m1.SizeLimit) := by
  have hr := Iterate_inRange m _ h
  rw [Iterate_eq m hr] at h
  split at h
  · simp only [Option.some.injEq, Prod.mk.injEq] at h
    obtain ⟨rfl, rfl⟩ := h
    refine ⟨rfl, ?_, fun hpre => hpre⟩
    intro hnone
    cases hnone
  · rename_i hng
    simp only [Option.some.injEq, Prod.mk.injEq] at h
    obtain ⟨-, rfl⟩ := h
    have hl : (rewrite m.productions m.currentState).length =
        exactNextSize m.productions m.currentState := rewrite_length _ _
    have hlen1 : (rewrite m.productions m.currentState).length < 2 ^ 64 := hlen
    have hbound : (rewrite m.productions m.currentState).length ≤ m.SizeLimit := by
      rw [hl] at hlen1 ⊢
      have hmod := Nat.mod_eq_of_lt hlen1
      unfold uint64Size at hng
      omega
    exact ⟨rfl, fun _ => hbound, fun _ => hbound⟩

/-- The engine AC with A to AA and the limit 10 steps to AAC, of length 3. -/
theorem Iterate_keeps_size_bound_witness :
    (GetValue { engineLimit 10 with currentState := [symA, symA, symC] }).length ≤ 10 :=
  (Iterate_keeps_size_bound (engineLimit 10)
    { engineLimit 10 with currentState := [symA, symA, symC] } none
    (by decide) (by decide)).2.1 rfl

theorem runCall_frame (m m1 : LSystem) (c : Call) (hc : isIterateOrReset c = true)
    (h : runCall m c = some m1) :
    m1.productions = m.productions ∧ m1.SizeLimit = m.SizeLimit := by
  cases c with
  | SetProduction s r => cases hc
  | SetSizeLimit limit => cases hc
  | Reset v =>
    simp only [runCall, Option.some.injEq] at h
    rw [← h]
    exact ⟨rfl, rfl⟩
  | Iterate =>
    simp only [runCall] at h
    cases hI : Iterate m with
    | none => simp [hI] at h
    | some r =>
      rw [hI] at h
      simp only [Option.map_some', Option.some.injEq] at h
      rw [← h]
      exact Iterate_frame m r.2 r.1 hI

theorem runCalls_frame :
    ∀ (calls : List Call) (m m1 : LSystem), (∀ c ∈ calls, isIterateOrReset c = true) →
      runCalls calls m = some m1 →
      m1.productions = m.productions ∧ m1.SizeLimit = m.SizeLimit
  | [], m, m1, _, h => by
    simp only [runCalls, Option.some.injEq] at h
    rw [← h]
    exact ⟨rfl, rfl⟩
  | c :: rest, m, m1, hall, h => by
    simp only [runCalls] at h
    cases hc : runCall m c with
    | none => simp [hc] at h
    | some m2 =>
      rw [hc] at h
      simp only [Option.some_bind] at h
      have h2 := runCall_frame m m2 c (hall c (List.mem_cons_self _ _)) hc
      have h3 := runCalls_frame rest m2 m1
        (fun d hd => hall d (List.mem_cons_of_mem _ hd)) h
      exact ⟨h3.1.trans h2.1, h3.2.trans h2.2⟩

/-- C15: a call of `Iterate` that returns `nil` replaces only the current state:
every entry of the production table and `SizeLimit` are the same after the call
as before it; hence the rules and the limit are the same after any sequence of
calls of `Iterate` and `Reset`. -/
theorem Iterate_keeps_rules_and_limit :
    (∀ m m1 : LSystem, Iterate m = some (none, m1) →
      m1.productions = m.productions ∧ m1.SizeLimit = m.SizeLimit) ∧
    (∀ (calls : List Call) (m m1 : LSystem),
      (∀ c ∈ calls, isIterateOrReset c = true) → runCalls calls m = some m1 →
      m1.productions = m.productions ∧ m1.SizeLimit = m.SizeLimit) :=
  ⟨fun m m1 h => Iterate_frame m m1 none h, runCalls_frame⟩

/-- The engine AC with A to AA: after `Iterate`, `Reset` to C and `Iterate` again
the table and the limit are those of the start. -/
theorem Iterate_keeps_rules_and_limit_witness :
    runCalls [Call.Iterate, Call.Reset [symC], Call.Iterate] (engineLimit 10) =
        some { engineLimit 10 with currentState := [symC] } ∧
      ({ engineLimit 10 with currentState := [symC] } : LSystem).productions =
        (engineLimit 10).productions ∧
      ({ engineLimit 10 with currentState := [symC] } : LSystem).SizeLimit =
        (engineLimit 10).SizeLimit :=
  ⟨by decide,
    Iterate_keeps_rules_and_limit.2 [Call.Iterate, Call.Reset [symC], Call.Iterate]
      (engineLimit 10) { engineLimit 10 with currentState := [symC] }
      (by decide) (by decide)⟩

/-! ## The table invariant -/

theorem Iterate_ne_none (m : LSystem) (hfull : FullTable m) : Iterate m ≠ none := by
  rw [Iterate_eq m (inRange_of_fullTable m hfull _)]
  split <;> simp

theorem runCall_fullTable (m : LSystem) (c : Call) (hfull : FullTable m) :
    ∃ m1, runCall m c = some m1 ∧ FullTable m1 := by
  cases c with
  | SetProduction s r =>
    have hlt : s.val < m.productions.length := by
      rw [hfull]
      exact s.isLt
    refine ⟨{ m with productions := m.productions.set s.val r }, ?_, ?_⟩
    · show SetProduction m s r = _
      rw [SetProduction_eq]
      simp [hlt]
    · show (m.productions.set s.val r).length = 256
      rw [List.length_set]
      exact hfull
  | Reset v => exact ⟨Reset m v, rfl, hfull⟩
  | SetSizeLimit limit => exact ⟨_, rfl, hfull⟩
  | Iterate =>
    cases hI : Iterate m with
    | none => exact absurd hI (Iterate_ne_none m hfull)
    | some r =>
      refine ⟨r.2, ?_, ?_⟩
      · simp [runCall, hI]
      · have hf := Iterate_frame m r.2 r.1 hI
        show r.2.productions.length = 256
        rw [hf.1]
        exact hfull

theorem runCalls_fullTable :
    ∀ (calls : List Call) (m : LSystem), FullTable m →
      ∃ m1, runCalls calls m = some m1 ∧ FullTable m1
  | [], m, hfull => ⟨m, rfl, hfull⟩
  | c :: rest, m, hfull => by
    obtain ⟨m2, h2, hf2⟩ := runCall_fullTable m c hfull
    obtain ⟨m1, h1, hf1⟩ := runCalls_fullTable rest m2 hf2
    refine ⟨m1, ?_, hf1⟩
    simp [runCalls, h2, h1]

/-- C19 (table invariant): whatever sequence of calls of `SetProduction`, `Reset`
and `Iterate` and of assignments to `SizeLimit` is made on an engine built by
`NewLSystem`, no call panics and the engine reached has a production table of
exactly 256 entries, each nil or a sequence; so the lookup `productions[c]` is in
range for every byte `c`, and neither `SetProduction`, `getNextSize` nor
`Iterate` takes the out-of-range branch on it. -/
theorem table_stays_full (v : List Byte) (calls : List Call) :
    ∃ m, runCalls calls (NewLSystem v) = some m ∧
      m.productions.length = 256 ∧
      (∀ c : Byte, ∃ p : Option (List Byte), m.productions[c.val]? = some p) ∧
      (∀ (s : Byte) (r : Option (List Byte)), SetProduction m s r ≠ none) ∧
      getNextSize m ≠ none ∧ Iterate m ≠ none := by
  obtain ⟨m, hrun, hfull⟩ := runCalls_fullTable calls (NewLSystem v) (newLSystem_fullTable v)
  have hlt : ∀ c : Byte, c.val < m.productions.length := by
    intro c
    rw [hfull]
    exact c.isLt
  refine ⟨m, hrun, hfull, ?_, ?_, ?_, Iterate_ne_none m hfull⟩
  · intro c
    exact ⟨_, List.getElem?_eq_getElem (hlt c)⟩
  · intro s r
    rw [SetProduction_eq]
    simp [hlt s]
  · rw [getNextSize_eq m (inRange_of_fullTable m hfull _)]
    simp

/-! ## Rewriting is a homomorphism over concatenation -/

theorem exactNextSize_append (P : List (Option (List Byte))) (x y : List Byte) :
    exactNextSize P (x ++ y) = exactNextSize P x + exactNextSize P y := by
  simp [exactNextSize]

/-- C20: for every rule table and limit (those of `m`) and all sequences `x` and
`y`, when `Iterate` returns `nil` from the state `x ++ y`, it returns `nil` from
`x` and from `y`, the state after `Iterate` from `x ++ y` is the state after
`Iterate` from `x` followed by the state after `Iterate` from `y`, and the
pre-pass size of `x ++ y` is the sum of the pre-pass sizes of `x` and `y`. The
new state is a slice, whose length is an `int` and so below `2 ^ 64`: that is
`hlen`. -/
theorem Iterate_append (m : LSystem) (x y : List Byte) (m1 : LSystem)
    (h : Iterate (withState m (x ++ y)) = some (none, m1))
    (hlen : (GetValue m1).length < 2 ^ 64) :
    ∃ (mx my : LSystem) (nx ny : Nat),
      Iterate (withState m x) = some (none, mx) ∧
      Iterate (withState m y) = some (none, my) ∧
      GetValue m1 = GetValue mx ++ GetValue my ∧
      getNextSize (withState m x) = some nx ∧
      getNextSize (withState m y) = some ny ∧
      getNextSize (withState m (x ++ y)) = some (nx + ny) := by
  have hr : InRange m.productions (x ++ y) := Iterate_inRange (withState m (x ++ y)) _ h
  have hrx : InRange m.productions x := fun c hc => hr c (List.mem_append_left _ hc)
  have hry : InRange m.productions y := fun c hc => hr c (List.mem_append_right _ hc)
  have h1 := Iterate_nil _ m1 h
  have hI := h
  rw [Iterate_eq (withState m (x ++ y)) hr] at hI
  have hlim : (withState m (x ++ y)).SizeLimit = m.SizeLimit := rfl
  have hst : (withState m (x ++ y)).currentState = x ++ y := rfl
  have hP : (withState m (x ++ y)).productions = m.productions := rfl
  rw [hlim, hst, hP] at hI
  have hval : GetValue m1 = rewrite m.productions (x ++ y) := by
    rw [h1]
    rfl
  have hsum : exactNextSize m.productions x + exactNextSize m.productions y < 2 ^ 64 := by
    rw [← exactNextSize_append, ← rewrite_length, ← hval]
    exact hlen
  have hle : exactNextSize m.productions x + exactNextSize m.productions y ≤ m.SizeLimit := by
    split at hI
    · simp at hI
    · rename_i hng
      rw [exactNextSize_append] at hng
      unfold uint64Size at hng
      have hmod := Nat.mod_eq_of_lt hsum
      omega
  have hmx : exactNextSize m.productions x % uint64Size = exactNextSize m.productions x := by
    apply Nat.mod_eq_of_lt
    unfold uint64Size
    omega
  have hmy : exactNextSize m.productions y % uint64Size = exactNextSize m.productions y := by
    apply Nat.mod_eq_of_lt
    unfold uint64Size
    omega
  have hmxy : exactNextSize m.productions (x ++ y) % uint64Size =
      exactNextSize m.productions x + exactNextSize m.productions y := by
    rw [exactNextSize_append]
    exact Nat.mod_eq_of_lt hsum
  have hIx : Iterate (withState m x) =
      some (none, { withState m x with currentState := rewrite m.productions x }) := by
    rw [Iterate_eq (withState m x) hrx]
    show (if exactNextSize m.productions x % uint64Size > m.SizeLimit then _ else _) = _
    rw [hmx, if_neg (by omega)]
    rfl
  have hIy : Iterate (withState m y) =
      some (none, { withState m y with currentState := rewrite m.productions y }) := by
    rw [Iterate_eq (withState m y) hry]
    show (if exactNextSize m.productions y % uint64Size > m.SizeLimit then _ else _) = _
    rw [hmy, if_neg (by omega)]
    rfl
  refine ⟨_, _, exactNextSize m.productions x, exactNextSize m.productions y,
    hIx, hIy, ?_, ?_, ?_, ?_⟩
  · rw [hval, rewrite_append]
    rfl
  · rw [getNextSize_eq (withState m x) hrx]
    exact congrArg some hmx
  · rw [getNextSize_eq (withState m y) hry]
    exact congrArg some hmy
  · rw [getNextSize_eq (withState m (x ++ y)) hr]
    exact congrArg some hmxy

/-- The rule A to AA under the limit 10: from A followed by C the call gives AA
followed by C, and the sizes 2 and 1 add up to 3. -/
theorem Iterate_append_witness :
    Iterate (withState (engineLimit 10) ([symA] ++ [symC])) =
        some (none, { engineLimit 10 with currentState := [symA, symA, symC] }) ∧
      ∃ (mx my : LSystem) (nx ny : Nat),
        Iterate (withState (engineLimit 10) [symA]) = some (none, mx) ∧
        Iterate (withState (engineLimit 10) [symC]) = some (none, my) ∧
        GetValue ({ engineLimit 10 with currentState := [symA, symA, symC] } : LSystem) =
          GetValue mx ++ GetValue my ∧
        getNextSize (withState (engineLimit 10) [symA]) = some nx ∧
        getNextSize (withState (engineLimit 10) [symC]) = some ny ∧
        getNextSize (withState (engineLimit 10) ([symA] ++ [symC])) = some (nx + ny) :=
  ⟨by decide,
    Iterate_append (engineLimit 10) [symA] [symC]
      { engineLimit 10 with currentState := [symA, symA, symC] } (by decide) (by decide)⟩

/-! ## Copies and shared arrays -/

theorem getD_append_left (h t : Heap) (i : Nat) (hi : i < h.length) :
    (h ++ t).getD i [] = h.getD i [] := by
  simp [List.getD_eq_getElem?_getD, List.getElem?_append_left hi]

theorem getD_append_length (h : Heap) (c : List Byte) :
    (h ++ [c]).getD h.length [] = c := by
  simp [List.getD_eq_getElem?_getD]

theorem set_append_length (h : Heap) (z c : List Byte) :
    (h ++ [z]).set h.length c = h ++ [c] := by
  simp [List.set_append]

theorem getD_set_ne (h : Heap) (i j : Nat) (y : List Byte) (hij : i ≠ j) :
    (h.set i y).getD j [] = h.getD j [] := by
  simp [List.getD_eq_getElem?_getD, List.getElem?_set_ne hij]

theorem contents_append (h t : Heap) (b : SliceRef) (hb : ∀ a, b = some a → a < h.length) :
    contents (h ++ t) b = contents h b := by
  cases b with
  | none => rfl
  | some a => exact getD_append_left h t a (hb a rfl)

/-- The slice `copyBytes` returns is over a new array, holding the content of
`b`. -/
theorem copyBytesRef_eq (h : Heap) (b : SliceRef) (hb : ∀ a, b = some a → a < h.length) :
    copyBytesRef h b = (h ++ [contents h b], h.length) := by
  unfold copyBytesRef makeBytes
  simp only
  rw [getD_append_length, contents_append h _ b hb, set_append_length]
  have hc : copy (List.replicate (contents h b).length 0) (contents h b) = contents h b :=
    copyBytes_eq (contents h b)
  rw [hc]

theorem storeByte_append (h : Heap) (c : List Byte) (a i : Nat) (x : Byte) (ha : a < h.length) :
    storeByte (h ++ [c]) a i x = storeByte h a i x ++ [c] := by
  unfold storeByte
  rw [getD_append_left h [c] a ha, List.set_append_left _ _ ha]

theorem storeByte_length (h : Heap) (a i : Nat) (x : Byte) :
    (storeByte h a i x).length = h.length := by
  simp [storeByte]

theorem storeByte_getD_ne (h : Heap) (a i : Nat) (x : Byte) (b : Nat) (hb : b ≠ a) :
    (storeByte h a i x).getD b [] = h.getD b [] := by
  unfold storeByte
  exact getD_set_ne h a b _ (fun hab => hb hab.symm)

/-- After a copy was appended, a store into the array `a` of the caller leaves
every other array that existed as it was. -/
theorem getD_store_old (h : Heap) (c : List Byte) (a i : Nat) (x : Byte) (b : Nat)
    (ha : a < h.length) (hb : b < h.length) (hne : b ≠ a) :
    (storeByte (h ++ [c]) a i x).getD b [] = h.getD b [] := by
  rw [storeByte_append h c a i x ha,
    getD_append_left _ _ b (by rw [storeByte_length]; exact hb),
    storeByte_getD_ne h a i x b hne]

/-- After a copy was appended, a store into the array `a` of the caller leaves
the copy as it was. -/
theorem getD_store_new (h : Heap) (c : List Byte) (a i : Nat) (x : Byte)
    (ha : a < h.length) :
    (storeByte (h ++ [c]) a i x).getD h.length [] = c := by
  rw [storeByte_append h c a i x ha]
  have hl := storeByte_length h a i x
  rw [← hl]
  exact getD_append_length _ c

theorem valueOf_productions_store (h : Heap) (m : LSystemRef) (c : List Byte) (a i : Nat)
    (x : Byte) (hown : CallerOwned h m a) :
    m.productions.map (fun p => p.map (fun b => (storeByte (h ++ [c]) a i x).getD b [])) =
      m.productions.map (fun p => p.map (fun b => h.getD b [])) := by
  apply List.map_congr_left
  intro p hp
  cases p with
  | none => rfl
  | some b =>
    obtain ⟨hb, hne⟩ := hown.2.2 (some b) hp b rfl
    exact congrArg some (getD_store_old h c a i x b hown.1 hb hne)

theorem valueOf_state_store (h : Heap) (m : LSystemRef) (c : List Byte) (a i : Nat)
    (x : Byte) (hown : CallerOwned h m a) :
    contents (storeByte (h ++ [c]) a i x) m.currentState = contents h m.currentState := by
  cases hcs : m.currentState with
  | none => rfl
  | some b =>
    obtain ⟨hb, hne⟩ := hown.2.1 b hcs
    exact getD_store_old h c a i x b hown.1 hb hne

/-- C16, the code at the failing input: `GetValue` returns the slice
`m.currentState` itself. For the engine built by `NewLSystem` from AC, a caller
that assigns B to the first element of the slice `GetValue` returned changes the
current state of the engine: the next `GetValue` reads BC and `Iterate` rewrites
BC. -/
theorem GetValue_shares_array :
    (∀ m : LSystemRef, GetValueRef m = m.currentState) ∧
      GetValueRef (NewLSystemRef heapAC (some 0)).2 = some 1 ∧
      contents (NewLSystemRef heapAC (some 0)).1
        (GetValueRef (NewLSystemRef heapAC (some 0)).2) = [symA, symC] ∧
      contents (storeByte (NewLSystemRef heapAC (some 0)).1 1 0 symB)
        (GetValueRef (NewLSystemRef heapAC (some 0)).2) = [symB, symC] ∧
      outcome (Iterate (valueOf (storeByte (NewLSystemRef heapAC (some 0)).1 1 0 symB)
        (NewLSystemRef heapAC (some 0)).2)) = some (none, [symB, symC]) := by
  refine ⟨fun _ => rfl, by decide, by decide, by decide, by decide⟩

/-- C17 (copy-in): `NewLSystem`, `Reset` and `SetProduction` store a copy of the
sequence they are given. Whatever element of its array `a` the caller assigns
after the call, the engine is the one the call made from the content `a` had at
the time of the call: the stored rule, the current state and the rest of the
engine are unchanged, and so are the results of later calls of `Iterate`. -/
theorem copy_in_independent (h : Heap) (m : LSystemRef) (a i : Nat) (x s : Byte)
    (hown : CallerOwned h m a) :
    valueOf (storeByte (NewLSystemRef h (some a)).1 a i x) (NewLSystemRef h (some a)).2 =
        NewLSystem (contents h (some a)) ∧
      valueOf (storeByte (ResetRef h m (some a)).1 a i x) (ResetRef h m (some a)).2 =
        Reset (valueOf h m) (contents h (some a)) ∧
      (SetProductionRef h m s (some a)).map (fun r => valueOf (storeByte r.1 a i x) r.2) =
        SetProduction (valueOf h m) s (some (contents h (some a))) := by
  have ha : a < h.length := hown.1
  have hcopy : copyBytesRef h (some a) = (h ++ [contents h (some a)], h.length) :=
    copyBytesRef_eq h (some a) (fun b hb => by cases hb; exact ha)
  have hnew := getD_store_new h (contents h (some a)) a i x ha
  have hprod := valueOf_productions_store h m (contents h (some a)) a i x hown
  have hstate := valueOf_state_store h m (contents h (some a)) a i x hown
  refine ⟨?_, ?_, ?_⟩
  · simp only [NewLSystemRef, hcopy]
    show LSystem.mk ((List.replicate 256 (none : SliceRef)).map _)
      ((storeByte (h ++ [contents h (some a)]) a i x).getD h.length []) DefaultSizeLimit =
      LSystem.mk (List.replicate 256 none) (copyBytes (contents h (some a))) DefaultSizeLimit
    rw [hnew, copyBytes_eq, List.map_replicate]
    rfl
  · simp only [ResetRef, hcopy]
    show LSystem.mk
      (m.productions.map (fun p => p.map (fun b =>
        (storeByte (h ++ [contents h (some a)]) a i x).getD b [])))
      ((storeByte (h ++ [contents h (some a)]) a i x).getD h.length []) m.SizeLimit =
      LSystem.mk (m.productions.map (fun p => p.map (fun b => h.getD b [])))
        (copyBytes (contents h (some a))) m.SizeLimit
    rw [hnew, copyBytes_eq, hprod]
  · rw [SetProduction_eq]
    have hlen : (valueOf h m).productions.length = m.productions.length := by
      simp [valueOf]
    rw [hlen]
    by_cases hs : s.val < m.productions.length
    · simp only [SetProductionRef, hs, if_true, hcopy, Option.map_some', Option.some.injEq]
      show LSystem.mk
        ((m.productions.set s.val (some h.length)).map (fun p => p.map (fun b =>
          (storeByte (h ++ [contents h (some a)]) a i x).getD b [])))
        (contents (storeByte (h ++ [contents h (some a)]) a i x) m.currentState)
        m.SizeLimit =
        LSystem.mk ((m.productions.map (fun p => p.map (fun b => h.getD b []))).set s.val
          (some (contents h (some a)))) (contents h m.currentState) m.SizeLimit
      rw [List.map_set, hprod, hstate]
      show LSystem.mk ((m.productions.map (fun p => p.map (fun b => h.getD b []))).set s.val
          (some ((storeByte (h ++ [contents h (some a)]) a i x).getD h.length [])))
        (contents h m.currentState) m.SizeLimit = _
      rw [hnew]
    · simp [SetProductionRef, hs]

/-- The array 1 of `heapOwned` is none of the arrays 0 and 2 of `engineOwned`. -/
theorem engineOwned_callerOwned : CallerOwned heapOwned engineOwned 1 := by
  refine ⟨by decide, ?_, ?_⟩
  · intro b hb
    cases hb
    decide
  · intro p hp b hb
    subst hb
    have h2 : b = 2 := by
      have hmem : some b ∈ (List.replicate 256 (none : SliceRef)).set symA.val (some 2) := hp
      rcases List.mem_or_eq_of_mem_set hmem with h1 | h1
      · exact absurd (List.eq_of_mem_replicate h1) (by simp)
      · exact Option.some.inj h1
    subst h2
    decide

/-- The engine over `heapOwned` (state AC, rule A to AA): after `Reset` with the
array BC of the caller, the caller assigns A to its first element; the current
state is still BC. -/
theorem copy_in_independent_witness :
    CallerOwned heapOwned engineOwned 1 ∧
      GetValue (valueOf (storeByte (ResetRef heapOwned engineOwned (some 1)).1 1 0 symA)
        (ResetRef heapOwned engineOwned (some 1)).2) = [symB, symC] :=
  ⟨engineOwned_callerOwned,
    (congrArg GetValue
      (copy_in_independent heapOwned engineOwned 1 0 symA symA
        engineOwned_callerOwned).2.1).trans (by decide)⟩

end l_system
